import Mathlib

/-!
Shallow embedding of the learnnet proof-of-work ledger
(src/src/lib/blockchain.rs and src/src/lib/consensus.rs).

Modelling conventions:
* Rust `u64`/`usize` fields are modelled as `Nat`, `i64` as `Int` (the values
  involved — block indices, proofs, amounts — never approach 2^64 on the
  claims' inputs, and no wrapping arithmetic occurs in the modelled code).
* `BTreeSet<T>` is modelled as a `List T` holding the set's iteration
  sequence (strictly ascending in the set's order); `insert` is the ordered
  no-duplicate insertion `insertSorted` below, `iter().next_back()` is
  `List.getLast?`, `len()` is `List.length`.
* `HashSet<Url>` is modelled as a duplicate-free `List String` with
  membership-guarded insertion (iteration order of a `HashSet` is
  unspecified; only membership and cardinality are used by the code).
* Panics (`expect`) are modelled as `Except.error`/`Option.none` results,
  paired where needed with the state the ledger holds at the panic point.
* The digest module `lib::hasher` and the transaction module
  `lib::transaction` belong to this repository but are not under `src/`;
  they are modelled from the spec (see `Hasher` and `Transaction`).
-/

namespace Learnnet

/-- Three-way comparison derived from a linear order, mirroring Rust's
derived `Ord` on each primitive field (`u64`, `i64`, `String`). -/
def cmpLin {α : Type} [LinearOrder α] (a b : α) : Ordering :=
  if a < b then Ordering.lt else if a = b then Ordering.eq else Ordering.gt

theorem cmpLin_eq_iff {α : Type} [LinearOrder α] (a b : α) :
    cmpLin a b = Ordering.eq ↔ a = b := by
  unfold cmpLin
  split_ifs with h1 h2
  · simp [h1.ne]
  · simp [h2]
  · simp [h2]

theorem cmpLin_lt_iff {α : Type} [LinearOrder α] (a b : α) :
    cmpLin a b = Ordering.lt ↔ a < b := by
  unfold cmpLin
  split_ifs with h1 h2
  · simp [h1]
  · simp [h1]
  · simp [h1]

theorem cmpLin_gt_iff {α : Type} [LinearOrder α] (a b : α) :
    cmpLin a b = Ordering.gt ↔ b < a := by
  unfold cmpLin
  split_ifs with h1 h2
  · simp [lt_asymm h1]
  · subst h2; simp
  · simp
    rcases lt_trichotomy a b with h | h | h
    · exact absurd h h1
    · exact absurd h h2
    · exact h

theorem then_eq_eq_iff (o1 o2 : Ordering) :
    o1.then o2 = Ordering.eq ↔ o1 = Ordering.eq ∧ o2 = Ordering.eq := by
  cases o1 <;> simp [Ordering.then]

theorem then_eq_lt_iff (o1 o2 : Ordering) :
    o1.then o2 = Ordering.lt ↔ o1 = Ordering.lt ∨ (o1 = Ordering.eq ∧ o2 = Ordering.lt) := by
  cases o1 <;> simp [Ordering.then]

theorem then_eq_gt_iff (o1 o2 : Ordering) :
    o1.then o2 = Ordering.gt ↔ o1 = Ordering.gt ∨ (o1 = Ordering.eq ∧ o2 = Ordering.gt) := by
  cases o1 <;> simp [Ordering.then]

/-- Lexicographic comparison of lists, mirroring Rust's `Ord` for
sequences (`str` bytes, `BTreeSet<T>` iteration order). -/
def cmpList {α : Type} (f : α → α → Ordering) : List α → List α → Ordering
  | [], [] => Ordering.eq
  | [], _ :: _ => Ordering.lt
  | _ :: _, [] => Ordering.gt
  | a :: ta, b :: tb => (f a b).then (cmpList f ta tb)

theorem cmpList_eq_iff {α : Type} (f : α → α → Ordering)
    (hf : ∀ a b : α, f a b = Ordering.eq ↔ a = b) :
    ∀ l1 l2 : List α, cmpList f l1 l2 = Ordering.eq ↔ l1 = l2 := by
  intro l1
  induction l1 with
  | nil => intro l2; cases l2 <;> simp [cmpList]
  | cons a ta ih =>
    intro l2
    cases l2 with
    | nil => simp [cmpList]
    | cons b tb => simp [cmpList, then_eq_eq_iff, hf, ih tb]

theorem cmpList_gt_iff {α : Type} (f : α → α → Ordering)
    (hfe : ∀ a b : α, f a b = Ordering.eq ↔ a = b)
    (hfg : ∀ a b : α, f a b = Ordering.gt ↔ f b a = Ordering.lt) :
    ∀ l1 l2 : List α, cmpList f l1 l2 = Ordering.gt ↔ cmpList f l2 l1 = Ordering.lt := by
  intro l1
  induction l1 with
  | nil => intro l2; cases l2 <;> simp [cmpList]
  | cons a ta ih =>
    intro l2
    cases l2 with
    | nil => simp [cmpList]
    | cons b tb =>
      simp only [cmpList, then_eq_gt_iff, then_eq_lt_iff, hfg, ih tb, hfe]
      constructor
      · rintro (h | ⟨he, h⟩)
        · exact Or.inl h
        · exact Or.inr ⟨he.symm, h⟩
      · rintro (h | ⟨he, h⟩)
        · exact Or.inl h
        · exact Or.inr ⟨he.symm, h⟩

/-- Comparison of strings as Rust orders them: lexicographic on the
character sequence (for UTF-8 encoded strings, byte-lexicographic and
code-point-lexicographic order agree). -/
def cmpStr (a b : String) : Ordering := cmpList cmpLin a.data b.data

theorem cmpStr_eq_iff (a b : String) : cmpStr a b = Ordering.eq ↔ a = b := by
  unfold cmpStr
  rw [cmpList_eq_iff cmpLin (fun x y => cmpLin_eq_iff x y)]
  constructor
  · intro h; cases a; cases b; exact congrArg String.mk h
  · intro h; rw [h]

theorem cmpStr_gt_iff (a b : String) :
    cmpStr a b = Ordering.gt ↔ cmpStr b a = Ordering.lt := by
  unfold cmpStr
  exact cmpList_gt_iff cmpLin (fun x y => cmpLin_eq_iff x y)
    (fun x y => by rw [cmpLin_gt_iff, cmpLin_lt_iff]) a.data b.data

/-- Modelled from the spec: `lib::transaction::Transaction`
(src/lib/transaction.rs, a repository file not under src/).  Per spec §3 a
transaction is the tuple `(sender, recipient, amount)` with `amount` a
non-negative numeric, comparable/orderable so it can live in a
deduplicating ordered container, with identical tuples treated as the same
transaction. -/
structure Transaction where
  sender : String
  recipient : String
  amount : Nat
deriving DecidableEq, Repr

/-- Modelled from the spec: the derived total order on transactions,
lexicographic on the `(sender, recipient, amount)` tuple (spec §3). -/
def Transaction.cmp (a b : Transaction) : Ordering :=
  (cmpStr a.sender b.sender).then
    ((cmpStr a.recipient b.recipient).then (cmpLin a.amount b.amount))

theorem Transaction.cmp_eq_iff (a b : Transaction) :
    Transaction.cmp a b = Ordering.eq ↔ a = b := by
  cases a; cases b
  simp [Transaction.cmp, then_eq_eq_iff, cmpStr_eq_iff, cmpLin_eq_iff,
    Transaction.mk.injEq, and_assoc]

theorem Transaction.cmp_gt_iff (a b : Transaction) :
    Transaction.cmp a b = Ordering.gt ↔ Transaction.cmp b a = Ordering.lt := by
  simp only [Transaction.cmp, then_eq_gt_iff, then_eq_lt_iff,
    cmpStr_eq_iff, cmpStr_gt_iff, cmpLin_eq_iff, cmpLin_lt_iff, cmpLin_gt_iff]
  constructor
  · rintro (h | ⟨he, h | ⟨he2, h⟩⟩)
    · exact Or.inl h
    · exact Or.inr ⟨he.symm, Or.inl h⟩
    · exact Or.inr ⟨he.symm, Or.inr ⟨he2.symm, h⟩⟩
  · rintro (h | ⟨he, h | ⟨he2, h⟩⟩)
    · exact Or.inl h
    · exact Or.inr ⟨he.symm, Or.inl h⟩
    · exact Or.inr ⟨he.symm, Or.inr ⟨he2.symm, h⟩⟩

/-- `Block` (blockchain.rs lines 22-31): `index: usize`, `timestamp: i64`,
`proof: u64`, `previous_hash: String`, `transactions: BTreeSet<Transaction>`
(modelled as its ascending iteration sequence). -/
structure Block where
  index : Nat
  timestamp : Int
  proof : Nat
  previous_hash : String
  transactions : List Transaction
deriving DecidableEq, Repr

/-- The derived `Ord` on `Block` (blockchain.rs line 24): lexicographic in
field declaration order `index, timestamp, proof, previous_hash,
transactions`. -/
def Block.cmp (a b : Block) : Ordering :=
  (cmpLin a.index b.index).then
    ((cmpLin a.timestamp b.timestamp).then
      ((cmpLin a.proof b.proof).then
        ((cmpStr a.previous_hash b.previous_hash).then
          (cmpList Transaction.cmp a.transactions b.transactions))))

theorem Block.cmp_gt_of_index_lt {a b : Block} (h : b.index < a.index) :
    Block.cmp a b = Ordering.gt := by
  have : cmpLin a.index b.index = Ordering.gt := (cmpLin_gt_iff _ _).mpr h
  simp [Block.cmp, this, Ordering.then]

/-- Ordered no-duplicate insertion into the iteration sequence of a
`BTreeSet`: walks to the first element not smaller than `x`; if an equal
element is present the set is unchanged, otherwise `x` is placed there. -/
def insertSorted {α : Type} (cmp : α → α → Ordering) (x : α) : List α → List α
  | [] => [x]
  | y :: ys =>
    match cmp x y with
    | Ordering.lt => x :: y :: ys
    | Ordering.eq => y :: ys
    | Ordering.gt => y :: insertSorted cmp x ys

theorem insertSorted_ne_nil {α : Type} (cmp : α → α → Ordering) (x : α) (l : List α) :
    insertSorted cmp x l ≠ [] := by
  cases l with
  | nil => simp [insertSorted]
  | cons y ys =>
    unfold insertSorted
    cases cmp x y <;> simp

theorem mem_insertSorted {α : Type} (cmp : α → α → Ordering)
    (hcmp : ∀ a b : α, cmp a b = Ordering.eq ↔ a = b) (x t : α) :
    ∀ l : List α, t ∈ insertSorted cmp x l ↔ t = x ∨ t ∈ l := by
  intro l
  induction l with
  | nil => simp [insertSorted]
  | cons y ys ih =>
    unfold insertSorted
    cases h : cmp x y with
    | lt => simp only [List.mem_cons]
    | eq =>
      have hxy : x = y := (hcmp x y).mp h
      subst hxy
      simp only [List.mem_cons]; tauto
    | gt => simp only [List.mem_cons, ih]; tauto

theorem insertSorted_append_of_gt {α : Type} (cmp : α → α → Ordering) (x : α) :
    ∀ l : List α, (∀ y ∈ l, cmp x y = Ordering.gt) → insertSorted cmp x l = l ++ [x] := by
  intro l
  induction l with
  | nil => intro _; simp [insertSorted]
  | cons y ys ih =>
    intro h
    have hy : cmp x y = Ordering.gt := h y (List.mem_cons_self y ys)
    unfold insertSorted
    rw [hy]
    simp [ih (fun z hz => h z (List.mem_cons_of_mem y hz))]

theorem insertSorted_eq_self_of_mem {α : Type} (cmp : α → α → Ordering)
    (hcmp : ∀ a b : α, cmp a b = Ordering.eq ↔ a = b)
    (hflip : ∀ a b : α, cmp a b = Ordering.gt ↔ cmp b a = Ordering.lt) (x : α) :
    ∀ l : List α, List.Pairwise (fun a b => cmp a b = Ordering.lt) l →
      x ∈ l → insertSorted cmp x l = l := by
  intro l
  induction l with
  | nil => intro _ h; simp at h
  | cons y ys ih =>
    intro hp hx
    rcases List.mem_cons.mp hx with he | hm
    · subst he
      have : cmp x x = Ordering.eq := (hcmp x x).mpr rfl
      unfold insertSorted
      rw [this]
    · have hlt : cmp y x = Ordering.lt := (List.pairwise_cons.mp hp).1 x hm
      have hgt : cmp x y = Ordering.gt := (hflip x y).mpr hlt
      unfold insertSorted
      rw [hgt, ih (List.pairwise_cons.mp hp).2 hm]

/-- Modelled from the spec: the digest module `lib::hasher`
(src/lib/hasher.rs, a repository file not under src/).  Spec §4.1/§6: both
the proof puzzle and the canonical block hash use a fixed cryptographic
digest producing a hex string; the canonical block hash may fail with a
`HashFailure` (a `Result` in the code, `Except` here).  The digest itself
is kept abstract as a parameter: every claim below is settled for an
arbitrary `Hasher`, and witnesses instantiate it concretely. -/
structure Hasher where
  hash_string : String → String
  hash : Block → Except String String

/-- `Blockchain::valid_proof` (blockchain.rs lines 146-158): build the
required zero run `"0".repeat(difficulty)`, concatenate the decimal
representations of `last_proof` and `proof`, hash, and test the leading
zeros.  Rust's `str::starts_with` is modelled as `List.isPrefixOf` on the
character sequences. -/
def valid_proof (H : Hasher) (last_proof proof difficulty : Nat) : Bool :=
  let target := String.mk (List.replicate difficulty '0')
  let guess := Nat.repr last_proof ++ Nat.repr proof
  let guess_hash := H.hash_string guess
  target.data.isPrefixOf guess_hash.data

/-- `Blockchain::proof_of_work` (blockchain.rs lines 134-142): linear scan
`proof = 0, 1, 2, ...` until `valid_proof` holds.  The Rust loop is
unbounded; it terminates exactly when some proof exists, so the embedding
takes that existence as a hypothesis and returns the least witness (which
is what the upward scan finds). -/
def proof_of_work (H : Hasher) (last_proof difficulty : Nat)
    (h : ∃ p, valid_proof H last_proof p difficulty = true) : Nat :=
  Nat.find h

/-- `Blockchain` (blockchain.rs lines 13-20): the chain and the pending
transactions are `BTreeSet`s (ascending iteration sequences here), the
peer set is a `HashSet<Url>` (duplicate-free list of addresses here),
`difficulty: u64`. -/
structure Blockchain where
  chain : List Block
  current_transactions : List Transaction
  nodes : List String
  difficulty : Nat
deriving DecidableEq, Repr

/-- `Blockchain::last_block` (blockchain.rs lines 121-124):
`chain.iter().next_back()`, i.e. the greatest element of the sorted set;
`none` models the `expect("Chain empty. Expected genesis block")` panic. -/
def last_block (bc : Blockchain) : Option Block := bc.chain.getLast?

/-- `Blockchain::new_transaction` (blockchain.rs lines 54-58): insert the
transaction into the pending `BTreeSet`, then return
`last_block().index + 1` (`none` models the panic on an empty chain). -/
def new_transaction (txn : Transaction) (bc : Blockchain) : Blockchain × Option Nat :=
  let bc2 := { bc with
    current_transactions := insertSorted Transaction.cmp txn bc.current_transactions }
  (bc2, (last_block bc2).map (fun b => b.index + 1))

/-- `Blockchain::register_node` (blockchain.rs lines 82-84): `HashSet`
insert, returning whether the address was newly added. -/
def register_node (address : String) (bc : Blockchain) : Blockchain × Bool :=
  if address ∈ bc.nodes then (bc, false)
  else ({ bc with nodes := bc.nodes ++ [address] }, true)

/-- `Blockchain::replace` (blockchain.rs lines 90-92): unconditional
wholesale replacement of the chain. -/
def replace (new_chain : List Block) (bc : Blockchain) : Blockchain :=
  { bc with chain := new_chain }

/-- `Blockchain::create_block` (blockchain.rs lines 98-110): move the whole
pending buffer into a new block with index `chain.len() + 1` and the
current timestamp (threaded in as `now`), leaving the buffer empty. -/
def create_block (now : Int) (proof : Nat) (previous_hash : String) (bc : Blockchain) :
    Blockchain × Block :=
  let txns := bc.current_transactions
  let block : Block := ⟨bc.chain.length + 1, now, proof, previous_hash, txns⟩
  ({ bc with current_transactions := [] }, block)

/-- `Blockchain::new_block` (blockchain.rs lines 115-119): create the block,
insert it into the chain set, and return `iter().next_back()` (the set's
greatest element; `none` models the `expect("Just added element")` panic,
which cannot fire since the set is non-empty after the insert). -/
def new_block (now : Int) (proof : Nat) (previous_hash : String) (bc : Blockchain) :
    Blockchain × Option Block :=
  let r := create_block now proof previous_hash bc
  let bc2 := { r.1 with chain := insertSorted Block.cmp r.2 r.1.chain }
  (bc2, bc2.chain.getLast?)

/-- `Blockchain::new_with` (blockchain.rs lines 39-48): empty ledger seeded
with the genesis block `new_block(100, "Genesis block.")`. -/
def new_with (now : Int) (difficulty : Nat) : Blockchain :=
  let blockchain : Blockchain := ⟨[], [], [], difficulty⟩
  (new_block now 100 "Genesis block." blockchain).1

/-- The reward transaction minted by `Blockchain::mine`
(blockchain.rs line 68): sender `"0"`, this node's identity, amount 1. -/
def reward_transaction : Transaction := ⟨"0", "my node address", 1⟩

/-- `Blockchain::hash_last_block` (blockchain.rs lines 167-171): hash the
greatest block; the error strings model the two `expect` panics (empty
chain inside `last_block`, and `"hash block failed"` on a failing hash). -/
def hash_last_block (H : Hasher) (bc : Blockchain) : Except String String :=
  match last_block bc with
  | none => Except.error "Chain empty. Expected genesis block"
  | some lb =>
    match H.hash lb with
    | Except.ok s => Except.ok s
    | Except.error _ => Except.error "hash block failed"

/-- Termination of the proof-of-work scan started from the ledger's last
block, the implicit assumption under which the Rust `while` loop in
`proof_of_work` returns (vacuous when the chain is empty, where
`new_block_proof` panics before the scan starts). -/
def PowTerminates (H : Hasher) (bc : Blockchain) : Prop :=
  ∀ lb, last_block bc = some lb → ∃ p, valid_proof H lb.proof p bc.difficulty = true

/-- `Blockchain::new_block_proof` (blockchain.rs lines 160-165): read the
last block's proof and run `proof_of_work` on it at the ledger's
difficulty; the error models the empty-chain panic in `last_block`. -/
def new_block_proof (H : Hasher) (bc : Blockchain) (hex : PowTerminates H bc) :
    Except String Nat :=
  match h : last_block bc with
  | none => Except.error "Chain empty. Expected genesis block"
  | some lb => Except.ok (proof_of_work H lb.proof bc.difficulty (hex lb h))

/-- `Blockchain::mine` (blockchain.rs lines 63-73), step for step: solve the
puzzle, buffer the reward transaction, hash the last block, forge the new
block.  The returned `Blockchain` is the ledger's state when the call ends,
including the state held at an `expect` panic (second component
`Except.error`): after the puzzle step the reward transaction is already in
the pending buffer. -/
def mine (H : Hasher) (now : Int) (bc : Blockchain) (hex : PowTerminates H bc) :
    Blockchain × Except String Block :=
  match new_block_proof H bc hex with
  | Except.error e => (bc, Except.error e)
  | Except.ok new_proof =>
    let bc1 := (new_transaction reward_transaction bc).1
    match hash_last_block H bc1 with
    | Except.error e => (bc1, Except.error e)
    | Except.ok previous_hash =>
      let r2 := new_block now new_proof previous_hash bc1
      match r2.2 with
      | some mined_block => (r2.1, Except.ok mined_block)
      | none => (r2.1, Except.error "Just added element")

/-- `Blockchain::check_hash` (blockchain.rs lines 191-198): hash the
previous block (the error models the `expect("//todo handle hash failure")`
panic) and compare with the current block's `previous_hash`. -/
def check_hash (H : Hasher) (previous_block current_block : Block) : Except String Bool :=
  match H.hash previous_block with
  | Except.error _ => Except.error "//todo handle hash failure"
  | Except.ok previous_block_hash =>
    Except.ok (current_block.previous_hash == previous_block_hash)

/-- `Blockchain::check_proof` (blockchain.rs lines 200-206): `valid_proof`
on the adjacent pair of proofs. -/
def check_proof (H : Hasher) (previous_block current_block : Block) (difficulty : Nat) : Bool :=
  valid_proof H previous_block.proof current_block.proof difficulty

/-- The loop body of `Blockchain::valid_chain` (blockchain.rs lines
176-189): walk the blocks in iteration order carrying
`previous_block_opt`; on each adjacent pair check hash linkage then proof
linkage (`||` short-circuits, so the proof is only checked when the hash
matched), returning `false` at the first failing pair. -/
def valid_chain_loop (H : Hasher) (difficulty : Nat) :
    Option Block → List Block → Except String Bool
  | _, [] => Except.ok true
  | none, block :: rest => valid_chain_loop H difficulty (some block) rest
  | some previous_block, block :: rest =>
    match check_hash H previous_block block with
    | Except.error e => Except.error e
    | Except.ok hash_ok =>
      if hash_ok = false then Except.ok false
      else if check_proof H previous_block block difficulty = false then Except.ok false
      else valid_chain_loop H difficulty (some block) rest

/-- `Blockchain::valid_chain` (blockchain.rs lines 176-189): the walk
starting with no previous block, at the ledger's difficulty. -/
def valid_chain (H : Hasher) (bc : Blockchain) (chain : List Block) : Except String Bool :=
  valid_chain_loop H bc.difficulty none chain

/-- `Consensus::get_neighbour_chains` (consensus.rs lines 41-52):
sequentially fetch each peer's serialized chain.  The transport (reqwest
`send` + `read_to_string`) is the injected fetcher capability `fetch`; on
a fetch failure the code calls `expect("todo: handle")`, modelled as the
whole call aborting with that error — the remaining peers are never
visited. -/
def get_neighbour_chains (fetch : String → Except String String) :
    List String → Except String (List String)
  | [] => Except.ok []
  | url :: rest =>
    match fetch url with
    | Except.error _ => Except.error "todo: handle"
    | Except.ok buffer =>
      match get_neighbour_chains fetch rest with
      | Except.error e => Except.error e
      | Except.ok chains => Except.ok (buffer :: chains)

/-- `Consensus::deserialize` (consensus.rs lines 54-65): parse each raw
chain (serde_json is the injected `parse` capability); a failing parse is
logged and that entry is skipped. -/
def deserialize (parse : String → Except String (List Block)) :
    List String → List (List Block)
  | [] => []
  | raw :: rest =>
    match parse raw with
    | Except.ok chain => chain :: deserialize parse rest
    | Except.error _ => deserialize parse rest

/-- `Consensus::get` (consensus.rs lines 36-39): fetch all raw chains, then
deserialize them. -/
def consensus_get (fetch : String → Except String String)
    (parse : String → Except String (List Block)) (urls : List String) :
    Except String (List (List Block)) :=
  match get_neighbour_chains fetch urls with
  | Except.error e => Except.error e
  | Except.ok chains_raw => Except.ok (deserialize parse chains_raw)

/-- The candidate-scanning loop of `Consensus::resolve_conflicts`
(consensus.rs lines 23-28): keep a chain when it is strictly longer than
the running `max_length` *and* `blockchain.valid_chain` accepts it (the
`&&` short-circuits, so validity is only checked on longer chains);
`valid_chain`'s panic (`Except.error`) aborts the scan. -/
def rc_loop (H : Hasher) (bc : Blockchain) :
    List (List Block) → Nat → Option (List Block) →
    Except String (Nat × Option (List Block))
  | [], max_length, new_chain => Except.ok (max_length, new_chain)
  | chain :: rest, max_length, new_chain =>
    if chain.length > max_length then
      match valid_chain H bc chain with
      | Except.error e => Except.error e
      | Except.ok true => rc_loop H bc rest chain.length (some chain)
      | Except.ok false => rc_loop H bc rest max_length new_chain
    else
      rc_loop H bc rest max_length new_chain

/-- `Consensus::resolve_conflicts` (consensus.rs lines 10-34): fetch and
deserialize every registered peer's chain, scan them with `max_length`
initialized to the ledger's own length, then replace the ledger's chain
with the best candidate if one was found, returning whether a replacement
happened. -/
def resolve_conflicts (H : Hasher) (fetch : String → Except String String)
    (parse : String → Except String (List Block)) (bc : Blockchain) :
    Except String (Blockchain × Bool) :=
  match consensus_get fetch parse bc.nodes with
  | Except.error e => Except.error e
  | Except.ok neighbour_chains =>
    match rc_loop H bc neighbour_chains bc.chain.length none with
    | Except.error e => Except.error e
    | Except.ok (_, some longest_chain) => Except.ok (replace longest_chain bc, true)
    | Except.ok (_, none) => Except.ok (bc, false)

/-- The linkage required of an adjacent pair by the spec's `valid_chain`
contract: the current block's `previous_hash` is the canonical hash of the
previous block, and the pair of proofs passes `valid_proof` at the given
difficulty. -/
def LinkOK (H : Hasher) (difficulty : Nat) (prev cur : Block) : Prop :=
  H.hash prev = Except.ok cur.previous_hash ∧
    valid_proof H prev.proof cur.proof difficulty = true

/-- Every adjacent pair of the list, taken in order, satisfies `LinkOK`;
lists of length at most one qualify trivially. -/
def PairsLinked (H : Hasher) (difficulty : Nat) : List Block → Prop
  | [] => True
  | [_] => True
  | a :: b :: rest => LinkOK H difficulty a b ∧ PairsLinked H difficulty (b :: rest)

theorem check_hash_eq_ok (H : Hasher) (p b : Block) (s : String)
    (hs : H.hash p = Except.ok s) :
    check_hash H p b = Except.ok (b.previous_hash == s) := by
  simp [check_hash, hs]

theorem valid_chain_loop_some_iff (H : Hasher) (d : Nat) :
    ∀ (l : List Block) (p : Block),
      (∀ b ∈ p :: l, ∃ s, H.hash b = Except.ok s) →
      (valid_chain_loop H d (some p) l = Except.ok true ↔ PairsLinked H d (p :: l)) := by
  intro l
  induction l with
  | nil => intro p _; simp [valid_chain_loop, PairsLinked]
  | cons b rest ih =>
    intro p hh
    obtain ⟨s, hs⟩ := hh p (List.mem_cons_self p _)
    have hstep : valid_chain_loop H d (some p) (b :: rest) =
        (if (b.previous_hash == s) = false then Except.ok false
         else if check_proof H p b d = false then Except.ok false
         else valid_chain_loop H d (some b) rest) := by
      simp only [valid_chain_loop, check_hash_eq_ok H p b s hs]
    rw [hstep]
    have hrest : ∀ x ∈ b :: rest, ∃ t, H.hash x = Except.ok t := by
      intro x hx
      exact hh x (List.mem_cons_of_mem p hx)
    cases hbeq : (b.previous_hash == s) with
    | false =>
      simp only [if_pos rfl]
      constructor
      · intro h; exact absurd h (by simp)
      · rintro ⟨⟨hl, _⟩, _⟩
        rw [hs] at hl
        have heq : s = b.previous_hash := Except.ok.inj hl
        rw [← heq] at hbeq
        simp at hbeq
    | true =>
      have hph : b.previous_hash = s := by
        exact eq_of_beq hbeq
      simp only [Bool.true_eq_false, if_false]
      cases hcp : check_proof H p b d with
      | false =>
        simp only [if_pos rfl]
        constructor
        · intro h; exact absurd h (by simp)
        · rintro ⟨⟨_, hv⟩, _⟩
          rw [check_proof] at hcp
          rw [hv] at hcp
          exact absurd hcp (by simp)
      | true =>
        simp only [Bool.true_eq_false, if_false]
        rw [ih b hrest]
        have hlink : LinkOK H d p b := by
          refine ⟨?_, ?_⟩
          · rw [hs, hph]
          · rw [← check_proof]; exact hcp
        show PairsLinked H d (b :: rest) ↔ PairsLinked H d (p :: b :: rest)
        cases rest with
        | nil => simp [PairsLinked, hlink]
        | cons c cs => simp [PairsLinked, hlink]

theorem valid_chain_loop_none_iff (H : Hasher) (d : Nat) (l : List Block)
    (hh : ∀ b ∈ l, ∃ s, H.hash b = Except.ok s) :
    valid_chain_loop H d none l = Except.ok true ↔ PairsLinked H d l := by
  cases l with
  | nil => simp [valid_chain_loop, PairsLinked]
  | cons b rest =>
    have hstep : valid_chain_loop H d none (b :: rest) =
        valid_chain_loop H d (some b) rest := rfl
    rw [hstep]
    exact valid_chain_loop_some_iff H d rest b hh

theorem valid_chain_loop_false_append (H : Hasher) (d : Nat) :
    ∀ (l1 : List Block) (p : Option Block) (l2 : List Block),
      valid_chain_loop H d p l1 = Except.ok false →
      valid_chain_loop H d p (l1 ++ l2) = Except.ok false := by
  intro l1
  induction l1 with
  | nil =>
    intro p l2 h
    have : valid_chain_loop H d p [] = Except.ok true := by
      cases p <;> rfl
    rw [this] at h
    exact absurd h (by simp)
  | cons b rest ih =>
    intro p l2 h
    cases p with
    | none =>
      have hstep : valid_chain_loop H d none ((b :: rest) ++ l2) =
          valid_chain_loop H d (some b) (rest ++ l2) := rfl
      rw [hstep]
      exact ih (some b) l2 h
    | some pb =>
      cases hch : check_hash H pb b with
      | error e =>
        rw [show valid_chain_loop H d (some pb) (b :: rest) =
            Except.error e by simp only [valid_chain_loop, hch]] at h
        exact absurd h (by simp)
      | ok hok =>
        cases hok with
        | false =>
          show valid_chain_loop H d (some pb) (b :: (rest ++ l2)) = Except.ok false
          simp [valid_chain_loop, hch]
        | true =>
          have hstep : valid_chain_loop H d (some pb) (b :: rest) =
              (if check_proof H pb b d = false then Except.ok false
               else valid_chain_loop H d (some b) rest) := by
            simp only [valid_chain_loop, hch, Bool.true_eq_false, if_false]
          rw [hstep] at h
          have hstep2 : valid_chain_loop H d (some pb) (b :: (rest ++ l2)) =
              (if check_proof H pb b d = false then Except.ok false
               else valid_chain_loop H d (some b) (rest ++ l2)) := by
            simp only [valid_chain_loop, hch, Bool.true_eq_false, if_false]
          show valid_chain_loop H d (some pb) (b :: (rest ++ l2)) = Except.ok false
          rw [hstep2]
          cases hcp : check_proof H pb b d with
          | false => simp [hcp]
          | true =>
            rw [hcp] at h
            simp only [Bool.true_eq_false, if_false] at h ⊢
            exact ih (some b) l2 h

theorem rc_loop_cons_skip (H : Hasher) (bc : Blockchain) (c : List Block)
    (rest : List (List Block)) (ml : Nat) (nc : Option (List Block))
    (h : ¬ c.length > ml) :
    rc_loop H bc (c :: rest) ml nc = rc_loop H bc rest ml nc := by
  simp only [rc_loop, if_neg h]

theorem rc_loop_cons_err (H : Hasher) (bc : Blockchain) (c : List Block)
    (rest : List (List Block)) (ml : Nat) (nc : Option (List Block)) (e : String)
    (hl : c.length > ml) (hv : valid_chain H bc c = Except.error e) :
    rc_loop H bc (c :: rest) ml nc = Except.error e := by
  simp only [rc_loop, if_pos hl, hv]

theorem rc_loop_cons_acc (H : Hasher) (bc : Blockchain) (c : List Block)
    (rest : List (List Block)) (ml : Nat) (nc : Option (List Block))
    (hl : c.length > ml) (hv : valid_chain H bc c = Except.ok true) :
    rc_loop H bc (c :: rest) ml nc = rc_loop H bc rest c.length (some c) := by
  simp only [rc_loop, if_pos hl, hv]

theorem rc_loop_cons_rej (H : Hasher) (bc : Blockchain) (c : List Block)
    (rest : List (List Block)) (ml : Nat) (nc : Option (List Block))
    (hl : c.length > ml) (hv : valid_chain H bc c = Except.ok false) :
    rc_loop H bc (c :: rest) ml nc = rc_loop H bc rest ml nc := by
  simp only [rc_loop, if_pos hl, hv]

theorem rc_loop_keeps_some (H : Hasher) (bc : Blockchain) :
    ∀ (chains : List (List Block)) (ml : Nat) (b : List Block)
      (m2 : Nat) (r : Option (List Block)),
      rc_loop H bc chains ml (some b) = Except.ok (m2, r) → r.isSome = true := by
  intro chains
  induction chains with
  | nil =>
    intro ml b m2 r h
    simp only [rc_loop] at h
    injection h with h2
    injection h2 with _ h3
    rw [← h3]
    rfl
  | cons c rest ih =>
    intro ml b m2 r h
    by_cases hl : c.length > ml
    · cases hv : valid_chain H bc c with
      | error e =>
        rw [rc_loop_cons_err H bc c rest ml (some b) e hl hv] at h
        exact absurd h (by simp)
      | ok v =>
        cases v with
        | true =>
          rw [rc_loop_cons_acc H bc c rest ml (some b) hl hv] at h
          exact ih c.length c m2 r h
        | false =>
          rw [rc_loop_cons_rej H bc c rest ml (some b) hl hv] at h
          exact ih ml b m2 r h
    · rw [rc_loop_cons_skip H bc c rest ml (some b) hl] at h
      exact ih ml b m2 r h

theorem rc_loop_none_result (H : Hasher) (bc : Blockchain) :
    ∀ (chains : List (List Block)) (ml : Nat) (m2 : Nat),
      rc_loop H bc chains ml none = Except.ok (m2, none) →
      ∀ c ∈ chains, ¬(ml < c.length ∧ valid_chain H bc c = Except.ok true) := by
  intro chains
  induction chains with
  | nil => intro ml m2 _ c hc; simp at hc
  | cons c0 rest ih =>
    intro ml m2 h c hc
    by_cases hl : c0.length > ml
    · cases hv : valid_chain H bc c0 with
      | error e =>
        rw [rc_loop_cons_err H bc c0 rest ml none e hl hv] at h
        exact absurd h (by simp)
      | ok v =>
        cases v with
        | true =>
          rw [rc_loop_cons_acc H bc c0 rest ml none hl hv] at h
          have := rc_loop_keeps_some H bc rest c0.length c0 m2 none h
          exact absurd this (by simp)
        | false =>
          rw [rc_loop_cons_rej H bc c0 rest ml none hl hv] at h
          rcases List.mem_cons.mp hc with he | hm
          · subst he
            rintro ⟨_, hvt⟩
            rw [hv] at hvt
            exact absurd hvt (by simp)
          · exact ih ml m2 h c hm
    · rw [rc_loop_cons_skip H bc c0 rest ml none hl] at h
      rcases List.mem_cons.mp hc with he | hm
      · subst he
        rintro ⟨hlt, _⟩
        exact hl hlt
      · exact ih ml m2 h c hm

theorem rc_loop_some_result (H : Hasher) (bc : Blockchain) (init : Nat) :
    ∀ (chains : List (List Block)) (ml : Nat) (nc : Option (List Block))
      (m2 : Nat) (c : List Block),
      init ≤ ml →
      rc_loop H bc chains ml nc = Except.ok (m2, some c) →
      nc = some c ∨
        (c ∈ chains ∧ init < c.length ∧ valid_chain H bc c = Except.ok true) := by
  intro chains
  induction chains with
  | nil =>
    intro ml nc m2 c _ h
    simp only [rc_loop] at h
    injection h with h2
    injection h2 with _ h3
    exact Or.inl h3
  | cons c0 rest ih =>
    intro ml nc m2 c hle h
    by_cases hl : c0.length > ml
    · cases hv : valid_chain H bc c0 with
      | error e =>
        rw [rc_loop_cons_err H bc c0 rest ml nc e hl hv] at h
        exact absurd h (by simp)
      | ok v =>
        cases v with
        | true =>
          rw [rc_loop_cons_acc H bc c0 rest ml nc hl hv] at h
          have hinit : init < c0.length := lt_of_le_of_lt hle hl
          rcases ih c0.length (some c0) m2 c (le_of_lt hinit) h with he | ⟨hm, hgt, hval⟩
          · have hcc : c = c0 := (Option.some.inj he).symm
            subst hcc
            exact Or.inr ⟨List.mem_cons_self c rest, hinit, hv⟩
          · exact Or.inr ⟨List.mem_cons_of_mem c0 hm, hgt, hval⟩
        | false =>
          rw [rc_loop_cons_rej H bc c0 rest ml nc hl hv] at h
          rcases ih ml nc m2 c hle h with he | ⟨hm, hgt, hval⟩
          · exact Or.inl he
          · exact Or.inr ⟨List.mem_cons_of_mem c0 hm, hgt, hval⟩
    · rw [rc_loop_cons_skip H bc c0 rest ml nc hl] at h
      rcases ih ml nc m2 c hle h with he | ⟨hm, hgt, hval⟩
      · exact Or.inl he
      · exact Or.inr ⟨List.mem_cons_of_mem c0 hm, hgt, hval⟩

/-- Concrete digest for witnesses: every string hashes to `""` and every
block hashes successfully to `""`. -/
def hasherOk : Hasher := ⟨fun _ => "", fun _ => Except.ok ""⟩

/-- Concrete digest whose block hash always fails. -/
def hasherBad : Hasher := ⟨fun _ => "", fun _ => Except.error "boom"⟩

/-- Concrete digest for which the puzzle at `last_proof = 1`,
`difficulty = 1` has least solution 1 (the guess `"10"` hashes without a
leading zero, the guess `"11"` hashes to `"0"`). -/
def hasherStep : Hasher :=
  ⟨fun s => if s = "11" then "0" else "x", fun _ => Except.ok ""⟩

/-- The genesis block of `new_with 0 d` ledgers used in witnesses. -/
def genesisBlock : Block := ⟨1, 0, 100, "Genesis block.", []⟩

/-- A follow-up block correctly linked to any block under `hasherOk` at
difficulty 0. -/
def nextBlock : Block := ⟨2, 5, 0, "", []⟩

/-- A follow-up block with a tampered `previous_hash` under `hasherOk`. -/
def badBlock : Block := ⟨2, 5, 0, "x", []⟩

/-- C1: `valid_chain` returns true exactly when every adjacent pair
`(prev, cur)` of the candidate, taken in order, has `cur.previous_hash`
equal to the canonical hash of `prev` and `valid_proof (prev.proof,
cur.proof)` at the ledger's difficulty (stated for candidates whose blocks
all hash successfully, since a failing hash panics instead of returning);
a chain of length 0 or 1 is trivially valid; and a chain that fails stays
rejected whatever is appended after the failing pair, i.e. the scan stops
at the first failure and never examines later pairs.  The embedding is
pure, so neither chain is mutated. -/
theorem claim1_valid_chain (H : Hasher) (bc : Blockchain) (c cf ce : List Block) (b0 : Block)
    (hh : ∀ b ∈ c, ∃ s, H.hash b = Except.ok s)
    (hcf : valid_chain H bc cf = Except.ok false) :
    (valid_chain H bc c = Except.ok true ↔ PairsLinked H bc.difficulty c)
    ∧ valid_chain H bc [] = Except.ok true
    ∧ valid_chain H bc [b0] = Except.ok true
    ∧ valid_chain H bc (cf ++ ce) = Except.ok false := by
  refine ⟨valid_chain_loop_none_iff H bc.difficulty c hh, rfl, rfl, ?_⟩
  exact valid_chain_loop_false_append H bc.difficulty cf none ce hcf

/-- C1 witness: the characterization applied to the `new_with 0 0` ledger,
a correctly linked two-block candidate, and a candidate with a tampered
`previous_hash` extended by a further block. -/
theorem claim1_valid_chain_witness :
    (valid_chain hasherOk (new_with 0 0) [genesisBlock, nextBlock] = Except.ok true ↔
      PairsLinked hasherOk (new_with 0 0).difficulty [genesisBlock, nextBlock])
    ∧ valid_chain hasherOk (new_with 0 0) [] = Except.ok true
    ∧ valid_chain hasherOk (new_with 0 0) [genesisBlock] = Except.ok true
    ∧ valid_chain hasherOk (new_with 0 0) ([genesisBlock, badBlock] ++ [nextBlock]) =
        Except.ok false :=
  claim1_valid_chain hasherOk (new_with 0 0) [genesisBlock, nextBlock]
    [genesisBlock, badBlock] [nextBlock] genesisBlock
    (fun _ _ => ⟨"", rfl⟩) rfl

/-- C2: provided `resolve_conflicts` returns (no panic inside
`valid_chain`), it returns `true` exactly when some fetched-and-parsed
candidate is strictly longer than the ledger's chain and passes
`valid_chain`; on `false` the ledger is returned untouched; on `true` the
resulting ledger is the input with its chain wholesale-replaced by such a
candidate. -/
theorem claim2_resolve_conflicts (H : Hasher) (fetch : String → Except String String)
    (parse : String → Except String (List Block)) (bc : Blockchain)
    (chains : List (List Block)) (bc2 : Blockchain) (r : Bool)
    (hget : consensus_get fetch parse bc.nodes = Except.ok chains)
    (hres : resolve_conflicts H fetch parse bc = Except.ok (bc2, r)) :
    (r = true ↔ ∃ c ∈ chains, bc.chain.length < c.length ∧
        valid_chain H bc c = Except.ok true)
    ∧ (r = false → bc2 = bc)
    ∧ (r = true → ∃ c ∈ chains, bc.chain.length < c.length ∧
        valid_chain H bc c = Except.ok true ∧ bc2 = replace c bc) := by
  unfold resolve_conflicts at hres
  rw [hget] at hres
  split at hres
  case _ e heq => exact Except.noConfusion heq
  case _ nchains heq =>
    have hcc : chains = nchains := Except.ok.inj heq
    subst hcc
    split at hres
    case _ e heq2 => exact Except.noConfusion hres
    case _ m2 lc heq2 =>
      have h1 : (replace lc bc, true) = (bc2, r) := Except.ok.inj hres
      have hbc : bc2 = replace lc bc := (congrArg Prod.fst h1).symm
      have hr : r = true := (congrArg Prod.snd h1).symm
      subst hbc; subst hr
      rcases rc_loop_some_result H bc bc.chain.length chains bc.chain.length none m2 lc
          (le_refl _) heq2 with he | ⟨hm, hgt, hval⟩
      · exact absurd he (by simp)
      · refine ⟨⟨fun _ => ⟨lc, hm, hgt, hval⟩, fun _ => rfl⟩, ?_, ?_⟩
        · intro hf; exact absurd hf (by simp)
        · intro _; exact ⟨lc, hm, hgt, hval, rfl⟩
    case _ m2 heq2 =>
      have h1 : (bc, false) = (bc2, r) := Except.ok.inj hres
      have hbc : bc = bc2 := congrArg Prod.fst h1
      have hr : r = false := (congrArg Prod.snd h1).symm
      subst hbc; subst hr
      have hnone := rc_loop_none_result H bc chains bc.chain.length m2 heq2
      refine ⟨?_, fun _ => rfl, fun ht => absurd ht (by simp)⟩
      simp only [Bool.false_eq_true, false_iff]
      rintro ⟨c, hm, hlen, hval⟩
      exact hnone c hm ⟨hlen, hval⟩

/-- A fetcher that always succeeds, returning an opaque raw payload. -/
def fetchOk : String → Except String String := fun _ => Except.ok "[chain]"

/-- A parser that turns any payload into the two-block candidate chain. -/
def parseTwo : String → Except String (List Block) :=
  fun _ => Except.ok [genesisBlock, nextBlock]

/-- A difficulty-0 ledger with one registered peer. -/
def bcPeer : Blockchain := (register_node "http://peer" (new_with 0 0)).1

/-- C2 witness: a peer serves a valid two-block chain to a one-block
ledger; the resolver replaces the chain and reports `true`. -/
theorem claim2_resolve_conflicts_witness :
    (true = true ↔ ∃ c ∈ [[genesisBlock, nextBlock]], bcPeer.chain.length < c.length ∧
        valid_chain hasherOk bcPeer c = Except.ok true)
    ∧ (true = false → replace [genesisBlock, nextBlock] bcPeer = bcPeer)
    ∧ (true = true → ∃ c ∈ [[genesisBlock, nextBlock]], bcPeer.chain.length < c.length ∧
        valid_chain hasherOk bcPeer c = Except.ok true
        ∧ replace [genesisBlock, nextBlock] bcPeer = replace c bcPeer) :=
  claim2_resolve_conflicts hasherOk fetchOk parseTwo bcPeer [[genesisBlock, nextBlock]]
    (replace [genesisBlock, nextBlock] bcPeer) true rfl rfl

/-- The puzzle `(last_proof, difficulty) = (1, 1)` is solvable under
`hasherStep` (the guess `"11"` hashes to `"0"`). -/
theorem hasherStep_solvable : ∃ p, valid_proof hasherStep 1 p 1 = true := ⟨1, by decide⟩

/-- C3: whenever the linear scan terminates (some valid proof exists —
the hypothesis `h`), `proof_of_work` satisfies its own validator
(`valid_proof` at the returned proof is true, i.e. the hex digest of the
decimal concatenation starts with `difficulty` zeros), and it returns the
smallest such value: every strictly smaller candidate fails
`valid_proof`. -/
theorem claim3_proof_of_work (H : Hasher) (last_proof difficulty q : Nat)
    (h : ∃ p, valid_proof H last_proof p difficulty = true)
    (hq : q < proof_of_work H last_proof difficulty h) :
    valid_proof H last_proof (proof_of_work H last_proof difficulty h) difficulty = true
    ∧ valid_proof H last_proof q difficulty = false := by
  have hq2 : q < Nat.find h := hq
  have hm := Nat.find_min h hq2
  refine ⟨Nat.find_spec h, ?_⟩
  simpa using hm

/-- C3 witness: under `hasherStep` the puzzle `(1, 1)` is solved, its
solution satisfies the validator, and the strictly smaller candidate 0
fails the validator. -/
theorem claim3_proof_of_work_witness :
    valid_proof hasherStep 1 (proof_of_work hasherStep 1 1 hasherStep_solvable) 1 = true
    ∧ valid_proof hasherStep 1 0 1 = false := by
  refine claim3_proof_of_work hasherStep 1 1 0 hasherStep_solvable ?_
  have hnz : proof_of_work hasherStep 1 1 hasherStep_solvable ≠ 0 := by
    intro hz
    have h0 := (Nat.find_eq_zero hasherStep_solvable).mp hz
    have h0f : valid_proof hasherStep 1 0 1 = false := by decide
    rw [h0f] at h0
    exact Bool.noConfusion h0
  exact Nat.pos_of_ne_zero hnz

/-- The puzzle at difficulty 0 is solvable under `hasherOk` (trivially, by
0). -/
theorem hasherOk_solvable : ∃ p, valid_proof hasherOk 100 p 0 = true := ⟨0, rfl⟩

/-- C10: at difficulty 0 the required zero-run is the empty string, so
`valid_proof` accepts every pair, and the linear scan of `proof_of_work`
stops immediately at 0. -/
theorem claim10_difficulty_zero (H : Hasher) (last_proof proof : Nat)
    (h : ∃ p, valid_proof H last_proof p 0 = true) :
    valid_proof H last_proof proof 0 = true
    ∧ proof_of_work H last_proof 0 h = 0 := by
  have h0 : ∀ q : Nat, valid_proof H last_proof q 0 = true := by
    intro q
    unfold valid_proof
    simp [List.isPrefixOf]
  exact ⟨h0 proof, (Nat.find_eq_zero h).mpr (h0 0)⟩

/-- C10 witness: the difficulty-0 facts evaluated under `hasherOk` at
`last_proof = 100`, `proof = 7`. -/
theorem claim10_difficulty_zero_witness :
    valid_proof hasherOk 100 7 0 = true
    ∧ proof_of_work hasherOk 100 0 hasherOk_solvable = 0 :=
  claim10_difficulty_zero hasherOk 100 7 hasherOk_solvable

theorem new_block_proof_none (H : Hasher) (bc : Blockchain) (hex : PowTerminates H bc)
    (h : last_block bc = none) :
    new_block_proof H bc hex = Except.error "Chain empty. Expected genesis block" := by
  unfold new_block_proof
  split
  · rfl
  next lb heq => rw [h] at heq; exact Option.noConfusion heq

theorem new_block_proof_some (H : Hasher) (bc : Blockchain) (hex : PowTerminates H bc)
    (lb : Block) (h : last_block bc = some lb) :
    new_block_proof H bc hex =
      Except.ok (proof_of_work H lb.proof bc.difficulty (hex lb h)) := by
  unfold new_block_proof
  split
  next heq => rw [h] at heq; exact Option.noConfusion heq
  next lb2 heq =>
    have he : lb2 = lb := by rw [h] at heq; exact (Option.some.inj heq).symm
    subst he
    rfl

theorem mine_of_empty (H : Hasher) (now : Int) (bc : Blockchain)
    (hex : PowTerminates H bc) (h : last_block bc = none) :
    mine H now bc hex = (bc, Except.error "Chain empty. Expected genesis block") := by
  unfold mine
  rw [new_block_proof_none H bc hex h]

theorem mine_hash_failure (H : Hasher) (now : Int) (bc : Blockchain)
    (hex : PowTerminates H bc) (lb : Block) (e0 : String)
    (hlb : last_block bc = some lb) (hfail : H.hash lb = Except.error e0) :
    mine H now bc hex =
      ((new_transaction reward_transaction bc).1, Except.error "hash block failed") := by
  have hlb1 : last_block (new_transaction reward_transaction bc).1 = some lb := hlb
  have h1 : hash_last_block H (new_transaction reward_transaction bc).1 =
      Except.error "hash block failed" := by
    simp only [hash_last_block, hlb1, hfail]
  unfold mine
  rw [new_block_proof_some H bc hex lb hlb]
  simp only [h1]

theorem mine_success (H : Hasher) (now : Int) (bc : Blockchain)
    (hex : PowTerminates H bc) (lb : Block) (s : String)
    (hlb : last_block bc = some lb) (hok : H.hash lb = Except.ok s)
    (hidx : ∀ b ∈ bc.chain, b.index ≤ bc.chain.length) :
    mine H now bc hex =
      ({ bc with
          chain := bc.chain ++ [⟨bc.chain.length + 1, now,
            proof_of_work H lb.proof bc.difficulty (hex lb hlb), s,
            insertSorted Transaction.cmp reward_transaction bc.current_transactions⟩],
          current_transactions := [] },
        Except.ok ⟨bc.chain.length + 1, now,
          proof_of_work H lb.proof bc.difficulty (hex lb hlb), s,
          insertSorted Transaction.cmp reward_transaction bc.current_transactions⟩) := by
  have hlb1 : last_block (⟨bc.chain,
      insertSorted Transaction.cmp reward_transaction bc.current_transactions,
      bc.nodes, bc.difficulty⟩ : Blockchain) = some lb := hlb
  have h1 : hash_last_block H (⟨bc.chain,
      insertSorted Transaction.cmp reward_transaction bc.current_transactions,
      bc.nodes, bc.difficulty⟩ : Blockchain) = Except.ok s := by
    simp only [hash_last_block, hlb1, hok]
  have happ : insertSorted Block.cmp
      (⟨bc.chain.length + 1, now,
        proof_of_work H lb.proof bc.difficulty (hex lb hlb), s,
        insertSorted Transaction.cmp reward_transaction bc.current_transactions⟩ : Block)
      bc.chain
      = bc.chain ++ [⟨bc.chain.length + 1, now,
          proof_of_work H lb.proof bc.difficulty (hex lb hlb), s,
          insertSorted Transaction.cmp reward_transaction bc.current_transactions⟩] := by
    refine insertSorted_append_of_gt Block.cmp _ bc.chain ?_
    intro b hb
    refine Block.cmp_gt_of_index_lt ?_
    show b.index < bc.chain.length + 1
    have := hidx b hb
    omega
  unfold mine
  rw [new_block_proof_some H bc hex lb hlb]
  simp only [h1, new_block, create_block, new_transaction, happ, List.getLast?_concat]

theorem mine_chain_ne_nil (H : Hasher) (now : Int) (bc : Blockchain)
    (hex : PowTerminates H bc) (hbc : bc.chain ≠ []) :
    (mine H now bc hex).1.chain ≠ [] := by
  unfold mine
  split
  · exact hbc
  · dsimp only
    split
    · exact hbc
    · split
      · exact insertSorted_ne_nil _ _ _
      · exact insertSorted_ne_nil _ _ _

theorem mem_foldl_insertSorted (t : Transaction) :
    ∀ (txns : List Transaction) (acc : List Transaction),
      t ∈ txns.foldl (fun a x => insertSorted Transaction.cmp x a) acc ↔
        t ∈ acc ∨ t ∈ txns := by
  intro txns
  induction txns with
  | nil => intro acc; simp
  | cons x xs ih =>
    intro acc
    simp only [List.foldl_cons, ih,
      mem_insertSorted Transaction.cmp (fun a b => Transaction.cmp_eq_iff a b) x t acc,
      List.mem_cons]
    tauto

/-- C7: `new_transaction` (the spec's `submit_transaction`) only touches
the pending buffer — chain, peer set and difficulty are unchanged — and
returns `last_block.index + 1` (as an `Option`, `none` being the panic on
an empty chain); insertion is value-based set insertion: the buffer
afterwards holds a transaction iff it is the submitted one or was already
buffered, and submitting a transaction equal to an already-buffered one
leaves the buffer unchanged. -/
theorem claim7_new_transaction (bc bcd : Blockchain) (txn txnd t : Transaction)
    (hs : List.Pairwise (fun a b => Transaction.cmp a b = Ordering.lt)
      bcd.current_transactions)
    (hmem : txnd ∈ bcd.current_transactions) :
    (new_transaction txn bc).1.chain = bc.chain
    ∧ (new_transaction txn bc).1.nodes = bc.nodes
    ∧ (new_transaction txn bc).1.difficulty = bc.difficulty
    ∧ (new_transaction txn bc).2 = (last_block bc).map (fun b => b.index + 1)
    ∧ (t ∈ (new_transaction txn bc).1.current_transactions ↔
        t = txn ∨ t ∈ bc.current_transactions)
    ∧ (new_transaction txnd bcd).1.current_transactions = bcd.current_transactions := by
  refine ⟨rfl, rfl, rfl, rfl, ?_, ?_⟩
  · exact mem_insertSorted Transaction.cmp (fun a b => Transaction.cmp_eq_iff a b) txn t
      bc.current_transactions
  · exact insertSorted_eq_self_of_mem Transaction.cmp
      (fun a b => Transaction.cmp_eq_iff a b) (fun a b => Transaction.cmp_gt_iff a b)
      txnd bcd.current_transactions hs hmem

/-- C7 witness: submitting `("c","d",5)` to a one-transaction ledger, and
re-submitting the already-buffered `("a","b",100)`. -/
theorem claim7_new_transaction_witness :
    (new_transaction ⟨"c", "d", 5⟩ ⟨[genesisBlock], [⟨"a", "b", 100⟩], [], 3⟩).1.chain =
        (⟨[genesisBlock], [⟨"a", "b", 100⟩], [], 3⟩ : Blockchain).chain
    ∧ (new_transaction ⟨"c", "d", 5⟩ ⟨[genesisBlock], [⟨"a", "b", 100⟩], [], 3⟩).1.nodes =
        (⟨[genesisBlock], [⟨"a", "b", 100⟩], [], 3⟩ : Blockchain).nodes
    ∧ (new_transaction ⟨"c", "d", 5⟩
        ⟨[genesisBlock], [⟨"a", "b", 100⟩], [], 3⟩).1.difficulty =
        (⟨[genesisBlock], [⟨"a", "b", 100⟩], [], 3⟩ : Blockchain).difficulty
    ∧ (new_transaction ⟨"c", "d", 5⟩ ⟨[genesisBlock], [⟨"a", "b", 100⟩], [], 3⟩).2 =
        (last_block ⟨[genesisBlock], [⟨"a", "b", 100⟩], [], 3⟩).map (fun b => b.index + 1)
    ∧ ((⟨"a", "b", 100⟩ : Transaction) ∈ (new_transaction ⟨"c", "d", 5⟩
        ⟨[genesisBlock], [⟨"a", "b", 100⟩], [], 3⟩).1.current_transactions ↔
        (⟨"a", "b", 100⟩ : Transaction) = ⟨"c", "d", 5⟩ ∨
        (⟨"a", "b", 100⟩ : Transaction) ∈
          (⟨[genesisBlock], [⟨"a", "b", 100⟩], [], 3⟩ : Blockchain).current_transactions)
    ∧ (new_transaction ⟨"a", "b", 100⟩
        ⟨[genesisBlock], [⟨"a", "b", 100⟩], [], 3⟩).1.current_transactions =
        (⟨[genesisBlock], [⟨"a", "b", 100⟩], [], 3⟩ : Blockchain).current_transactions :=
  claim7_new_transaction ⟨[genesisBlock], [⟨"a", "b", 100⟩], [], 3⟩
    ⟨[genesisBlock], [⟨"a", "b", 100⟩], [], 3⟩ ⟨"c", "d", 5⟩ ⟨"a", "b", 100⟩
    ⟨"a", "b", 100⟩ (by decide) (by decide)

/-- C9: `replace` validates nothing — it installs any chain wholesale,
including the empty one.  On the emptied ledger `last_block` hits its
"Chain empty" expect (modelled `none`), `new_transaction` hits the same
expect computing its returned index, and `mine` fails with the same panic
before touching the ledger; the panic branch of `last_block` is
unreachable precisely when the chain is non-empty. -/
theorem claim9_replace_empty (H : Hasher) (now : Int) (bc bc0 : Blockchain)
    (new_chain : List Block) (txn : Transaction)
    (hex : PowTerminates H (replace [] bc)) :
    (replace new_chain bc).chain = new_chain
    ∧ last_block (replace [] bc) = none
    ∧ (new_transaction txn (replace [] bc)).2 = none
    ∧ (mine H now (replace [] bc) hex).2 =
        Except.error "Chain empty. Expected genesis block"
    ∧ ((last_block bc0).isSome = true ↔ bc0.chain ≠ []) := by
  refine ⟨rfl, rfl, rfl, ?_, ?_⟩
  · rw [mine_of_empty H now (replace [] bc) hex rfl]
  · show bc0.chain.getLast?.isSome = true ↔ bc0.chain ≠ []
    rw [Option.isSome_iff_ne_none]
    constructor
    · intro h he
      rw [he] at h
      exact h rfl
    · intro h hn
      exact h (List.getLast?_eq_none_iff.mp hn)

/-- C9 witness: emptying the `new_with 0 3` ledger via `replace []`. -/
theorem claim9_replace_empty_witness :
    (replace [nextBlock] (new_with 0 3)).chain = [nextBlock]
    ∧ last_block (replace [] (new_with 0 3)) = none
    ∧ (new_transaction ⟨"a", "b", 100⟩ (replace [] (new_with 0 3))).2 = none
    ∧ (mine hasherOk 0 (replace [] (new_with 0 3))
        (fun _ h => Option.noConfusion h)).2 =
        Except.error "Chain empty. Expected genesis block"
    ∧ ((last_block (new_with 0 3)).isSome = true ↔ (new_with 0 3).chain ≠ []) :=
  claim9_replace_empty hasherOk 0 (new_with 0 3) (new_with 0 3) [nextBlock]
    ⟨"a", "b", 100⟩ (fun _ h => Option.noConfusion h)

theorem proof_of_work_eq_zero (H : Hasher) (lp d : Nat)
    (h : ∃ p, valid_proof H lp p d = true) (h0 : valid_proof H lp 0 d = true) :
    proof_of_work H lp d h = 0 := (Nat.find_eq_zero h).mpr h0

/-- The puzzle terminates on the fresh difficulty-0 ledger under `hasherOk`. -/
theorem powOk_new0 : PowTerminates hasherOk (new_with 0 0) := fun _ _ => ⟨0, rfl⟩

/-- The puzzle terminates on the fresh difficulty-0 ledger under `hasherBad`
(the string digest still succeeds; only the block digest fails). -/
theorem powBad_new0 : PowTerminates hasherBad (new_with 0 0) := fun _ _ => ⟨0, rfl⟩

/-- C8 counterexample: the claim lists `replace` among the operations
preserving non-emptiness, but `replace` with the empty chain empties a
freshly constructed ledger's chain. -/
theorem claim8_counterexample : (replace [] (new_with 0 3)).chain = [] := rfl

/-- C8 (amended): `new_with` seeds the chain with exactly the genesis
block (`proof = 100`, `previous_hash = "Genesis block."`), and
non-emptiness is preserved by `new_transaction`, `register_node`, every
outcome of `mine`, and by `replace` whenever the replacement chain is
non-empty (`valid_chain` never writes the ledger: the embedding reads only
its difficulty); `replace` with the empty chain, however, empties the
ledger. -/
theorem claim8_nonempty (H : Hasher) (now now2 : Int) (d : Nat) (txn : Transaction)
    (addr : String) (c : List Block) (bc : Blockchain)
    (hex : PowTerminates H bc) (hbc : bc.chain ≠ []) (hc : c ≠ []) :
    (new_with now d).chain = [⟨1, now, 100, "Genesis block.", []⟩]
    ∧ (new_transaction txn bc).1.chain ≠ []
    ∧ (register_node addr bc).1.chain ≠ []
    ∧ (mine H now2 bc hex).1.chain ≠ []
    ∧ (replace c bc).chain ≠ [] := by
  refine ⟨rfl, hbc, ?_, mine_chain_ne_nil H now2 bc hex hbc, hc⟩
  unfold register_node
  split
  · exact hbc
  · exact hbc

/-- C8 witness: the amended facts evaluated on fresh difficulty-0 ledgers. -/
theorem claim8_nonempty_witness :
    (new_with 5 0).chain = [⟨1, 5, 100, "Genesis block.", []⟩]
    ∧ (new_transaction ⟨"a", "b", 100⟩ (new_with 0 0)).1.chain ≠ []
    ∧ (register_node "http://peer" (new_with 0 0)).1.chain ≠ []
    ∧ (mine hasherOk 9 (new_with 0 0) powOk_new0).1.chain ≠ []
    ∧ (replace [nextBlock] (new_with 0 0)).chain ≠ [] :=
  claim8_nonempty hasherOk 5 9 0 ⟨"a", "b", 100⟩ "http://peer" [nextBlock]
    (new_with 0 0) powOk_new0 (by decide) (by decide)

/-- C5 counterexample: with a failing block digest, `mine` on the fresh
difficulty-0 ledger fails with the `HashFailure` panic, yet the pending
buffer is not what it was before the call — it has gained the reward
transaction — so the ledger is not left entirely unchanged. -/
theorem claim5_counterexample :
    (mine hasherBad 0 (new_with 0 0) powBad_new0).2 = Except.error "hash block failed"
    ∧ (mine hasherBad 0 (new_with 0 0) powBad_new0).1.current_transactions ≠
        (new_with 0 0).current_transactions := by
  have h := mine_hash_failure hasherBad 0 (new_with 0 0) powBad_new0
    ⟨1, 0, 100, "Genesis block.", []⟩ "boom" rfl rfl
  rw [h]
  exact ⟨rfl, by decide⟩

/-- C5 (amended): if hashing the last block fails during `mine`, the chain
is not extended and peer set and difficulty are untouched, but the pending
buffer has already been mutated: it holds the pre-mine transactions plus
the reward transaction, which `mine` buffers before hashing. -/
theorem claim5_hash_failure_state (H : Hasher) (now : Int) (bc : Blockchain)
    (hex : PowTerminates H bc) (lb : Block) (e0 : String)
    (hlb : last_block bc = some lb) (hfail : H.hash lb = Except.error e0) :
    (mine H now bc hex).2 = Except.error "hash block failed"
    ∧ (mine H now bc hex).1.chain = bc.chain
    ∧ (mine H now bc hex).1.nodes = bc.nodes
    ∧ (mine H now bc hex).1.difficulty = bc.difficulty
    ∧ (mine H now bc hex).1.current_transactions =
        insertSorted Transaction.cmp reward_transaction bc.current_transactions := by
  rw [mine_hash_failure H now bc hex lb e0 hlb hfail]
  exact ⟨rfl, rfl, rfl, rfl, rfl⟩

/-- C5 witness: the amended statement evaluated at the failing digest and
the fresh difficulty-0 ledger. -/
theorem claim5_hash_failure_state_witness :
    (mine hasherBad 0 (new_with 0 0) powBad_new0).2 = Except.error "hash block failed"
    ∧ (mine hasherBad 0 (new_with 0 0) powBad_new0).1.chain = (new_with 0 0).chain
    ∧ (mine hasherBad 0 (new_with 0 0) powBad_new0).1.nodes = (new_with 0 0).nodes
    ∧ (mine hasherBad 0 (new_with 0 0) powBad_new0).1.difficulty =
        (new_with 0 0).difficulty
    ∧ (mine hasherBad 0 (new_with 0 0) powBad_new0).1.current_transactions =
        insertSorted Transaction.cmp reward_transaction
          (new_with 0 0).current_transactions :=
  claim5_hash_failure_state hasherBad 0 (new_with 0 0) powBad_new0
    ⟨1, 0, 100, "Genesis block.", []⟩ "boom" rfl rfl

/-- C4: for a ledger whose pending buffer holds exactly the transactions
submitted (by any sequence of `new_transaction` calls folding into the
empty buffer) since the previous mine, a successful `mine` empties the
buffer and appends one block whose index is the previous chain length
plus 1 and whose transaction set holds precisely the submitted
transactions plus the reward transaction.  Stated for chains whose block
indices do not exceed the chain length (true of every ledger reachable
through the public interface), which makes the forged block the greatest
element of the chain set and hence the block inserted and returned. -/
theorem claim4_mine (H : Hasher) (now : Int) (chain0 : List Block)
    (nodes0 : List String) (d : Nat) (txns : List Transaction) (t : Transaction)
    (hex : PowTerminates H ⟨chain0,
      txns.foldl (fun a x => insertSorted Transaction.cmp x a) [], nodes0, d⟩)
    (bc2 : Blockchain) (blk : Block)
    (hidx : ∀ b ∈ chain0, b.index ≤ chain0.length)
    (hmine : mine H now ⟨chain0,
      txns.foldl (fun a x => insertSorted Transaction.cmp x a) [], nodes0, d⟩ hex =
      (bc2, Except.ok blk)) :
    bc2.current_transactions = []
    ∧ blk.index = chain0.length + 1
    ∧ (t ∈ blk.transactions ↔ t ∈ txns ∨ t = reward_transaction)
    ∧ bc2.chain = chain0 ++ [blk] := by
  cases hlb : last_block (⟨chain0,
      txns.foldl (fun a x => insertSorted Transaction.cmp x a) [], nodes0, d⟩ :
      Blockchain) with
  | none =>
    rw [mine_of_empty H now _ hex hlb] at hmine
    have h2 := congrArg Prod.snd hmine
    exact absurd h2 (by simp)
  | some lb =>
    cases hh : H.hash lb with
    | error e0 =>
      rw [mine_hash_failure H now _ hex lb e0 hlb hh] at hmine
      have h2 := congrArg Prod.snd hmine
      exact absurd h2 (by simp)
    | ok s =>
      rw [mine_success H now _ hex lb s hlb hh hidx] at hmine
      have h2 := congrArg Prod.snd hmine
      have hblk := (Except.ok.inj h2).symm
      subst hblk
      have h1 := congrArg Prod.fst hmine
      subst h1
      refine ⟨rfl, rfl, ?_, rfl⟩
      show t ∈ insertSorted Transaction.cmp reward_transaction
          (txns.foldl (fun a x => insertSorted Transaction.cmp x a) []) ↔
        t ∈ txns ∨ t = reward_transaction
      rw [mem_insertSorted Transaction.cmp (fun a b => Transaction.cmp_eq_iff a b)
        reward_transaction t _]
      rw [mem_foldl_insertSorted t txns []]
      simp [or_comm]

/-- The puzzle terminates on the C4 witness ledger under `hasherOk`. -/
theorem powOk_c4 : PowTerminates hasherOk ⟨[genesisBlock],
    [(⟨"a", "b", 100⟩ : Transaction)].foldl
      (fun a x => insertSorted Transaction.cmp x a) [], [], 0⟩ :=
  fun _ _ => ⟨0, rfl⟩

/-- C4 witness: submitting `("a","b",100)` to a fresh difficulty-0 ledger
and mining appends block 2 carrying exactly that transaction and the
reward. -/
theorem claim4_mine_witness :
    (⟨[genesisBlock, ⟨2, 9, 0, "", [reward_transaction, ⟨"a", "b", 100⟩]⟩],
        [], [], 0⟩ : Blockchain).current_transactions = []
    ∧ (⟨2, 9, 0, "", [reward_transaction, ⟨"a", "b", 100⟩]⟩ : Block).index =
        [genesisBlock].length + 1
    ∧ (reward_transaction ∈
        (⟨2, 9, 0, "", [reward_transaction, ⟨"a", "b", 100⟩]⟩ : Block).transactions ↔
        reward_transaction ∈ [(⟨"a", "b", 100⟩ : Transaction)] ∨
          reward_transaction = reward_transaction)
    ∧ (⟨[genesisBlock, ⟨2, 9, 0, "", [reward_transaction, ⟨"a", "b", 100⟩]⟩],
        [], [], 0⟩ : Blockchain).chain =
        [genesisBlock] ++ [⟨2, 9, 0, "", [reward_transaction, ⟨"a", "b", 100⟩]⟩] := by
  refine claim4_mine hasherOk 9 [genesisBlock] [] 0
    [(⟨"a", "b", 100⟩ : Transaction)] reward_transaction powOk_c4 _ _ (by decide) ?_
  rw [mine_success hasherOk 9 _ powOk_c4 genesisBlock "" rfl rfl (by decide)]
  dsimp only [genesisBlock]
  rw [proof_of_work_eq_zero hasherOk 100 0 _ rfl]
  rfl

/-- A fetcher that fails on the first peer and succeeds on the second. -/
def fetchFailFirst : String → Except String String :=
  fun u => if u = "http://peer1" then Except.error "connection refused"
           else Except.ok "[chain]"

/-- A parser failing on the payload `"bad"` only. -/
def parseFailFirst : String → Except String (List Block) :=
  fun s => if s = "bad" then Except.error "invalid"
           else Except.ok [genesisBlock, nextBlock]

/-- C6: the code contradicts the claim for fetch failures, at the concrete
failing input below: one failing peer aborts `get_neighbour_chains`
through the `expect("todo: handle")` panic — the second peer is never
consulted and `resolve_conflicts` does not return a boolean — whereas a
deserialization failure is indeed logged and only that entry skipped. -/
theorem claim6_fetch_failure_aborts :
    get_neighbour_chains fetchFailFirst ["http://peer1", "http://peer2"] =
      Except.error "todo: handle"
    ∧ resolve_conflicts hasherOk fetchFailFirst parseFailFirst
        ⟨[genesisBlock], [], ["http://peer1", "http://peer2"], 0⟩ =
      Except.error "todo: handle"
    ∧ deserialize parseFailFirst ["bad", "good"] = [[genesisBlock, nextBlock]] := by
  refine ⟨rfl, ?_, rfl⟩
  rfl

end Learnnet
